import Mathlib

/-!
Verification of the retrieval orchestration and context-assembly engine of the
Q2C repository (`backend_multimodal.py`, `streamlit_app.py`,
`streamlit_app_multilingual.py`, `app.py`).

Python strings are modelled as Lean `String` (sequences of code points); the
Python string primitives used by the code (`str.lower`, `str.strip`,
`str.split()`, substring membership `in`, slicing) are embedded as structural
recursions over `String.data` so that all definitions evaluate inside the
kernel.  Float scores are modelled as rationals: the only score arithmetic in
the code is `1.0 / (overlap + 1)` and comparisons against the literals `1.0`
and `1.2`, all of which are exact in `ℚ`.  Python's `hash` is an unspecified
function of the hashed string, so it is a parameter `h : String → Int`
throughout.  Python's `sorted(..., key=lambda x: x[1])` is a stable ascending
sort by the score component; `List.insertionSort` with the pointwise key order
is also stable, hence extensionally identical.
-/

/-- Embedding of Python `str.lower()` (per-code-point lowercasing). -/
def lowerStr (s : String) : String := ⟨s.data.map Char.toLower⟩

/-- Embedding of Python `str.strip()`: remove leading and trailing whitespace. -/
def wsTrim (s : String) : String :=
  ⟨((s.data.dropWhile Char.isWhitespace).reverse.dropWhile Char.isWhitespace).reverse⟩

/-- Helper for `splitWs`: accumulate the current word (reversed) and the words
seen so far (reversed). -/
def splitWsAux (cur : List Char) (acc : List String) : List Char → List String
  | [] => if cur = [] then acc.reverse else (String.mk cur.reverse :: acc).reverse
  | c :: cs =>
    if c.isWhitespace then
      if cur = [] then splitWsAux [] acc cs
      else splitWsAux [] (String.mk cur.reverse :: acc) cs
    else splitWsAux (c :: cur) acc cs

/-- Embedding of Python `str.split()` with no argument: split on runs of
whitespace, discarding empty pieces. -/
def splitWs (s : String) : List String := splitWsAux [] [] s.data

/-- Embedding of Python substring membership `a in b`. -/
def isSubstr (a b : String) : Bool := decide (a.data <:+: b.data)

/-- Embedding of Python slicing `s[:n]`. -/
def strTake (s : String) (n : Nat) : String := ⟨s.data.take n⟩

/-- Embedding of Python `len(s)` (number of code points). -/
def strLen (s : String) : Nat := s.data.length

/-- Embedding of Python slicing `s[-n:]` for `0 < n ≤ len(s)` (the code only
uses it under a length guard that guarantees this). -/
def takeLastStr (s : String) (n : Nat) : String := ⟨s.data.drop (s.data.length - n)⟩

/-- Embedding of Python `sep.join(parts)`. -/
def joinSep (sep : String) : List String → String
  | [] => ""
  | [x] => x
  | x :: y :: xs => x ++ sep ++ joinSep sep (y :: xs)

/-- A chunk as stored in the vector store: `page_content` plus the `source` and
`page` metadata entries (absent keys are `none`; the page value is kept in its
rendered form, which is faithful because rendering of distinct pages is
distinct). -/
structure Doc where
  content : String
  source : Option String
  page : Option String
deriving DecidableEq

/-- The vector-store collaborator, as used by `hybrid_search`:
`similarity_search_with_score` and the bulk dump `get()` (whose parallel
`documents`/`metadatas` arrays are zipped into one list of chunks). -/
structure VectorStore where
  similarity_search_with_score : String → Nat → List (Doc × ℚ)
  allDocs : List Doc

/-- Embedding of Python `set(s.lower().split())`: the distinct lowercased
whitespace tokens of a string. -/
def wordSet (s : String) : List String := (splitWs (lowerStr s)).dedup

/-- Size of the intersection of the query word set and a document's word set
(`len(query_words.intersection(doc_words))`). -/
def overlapCount (query docText : String) : Nat :=
  ((wordSet query).filter (fun w => decide (w ∈ wordSet docText))).length

/-- The lexical candidates of `hybrid_search` (`backend_multimodal.py` lines
64–75): every corpus chunk sharing at least one token with the query, scored
`1/(overlap+1)`. -/
def keyword_matches (store : VectorStore) (query : String) : List (Doc × ℚ) :=
  store.allDocs.filterMap (fun d =>
    let overlap := overlapCount query d.content
    if 0 < overlap then some (d, mkRat 1 (overlap + 1)) else none)

/-- The content fingerprint used for deduplication:
`hash(doc.page_content[:100])` for an arbitrary hash function `h`. -/
def fpOf (h : String → Int) (d : Doc) : Int := h (strTake d.content 100)

/-- The deduplication loop of `hybrid_search` (lines 77–83): keep a candidate
only when its content fingerprint has not been seen before. -/
def dedupByFp (h : String → Int) (seen : List Int) : List (Doc × ℚ) → List (Doc × ℚ)
  | [] => []
  | p :: rest =>
    if fpOf h p.1 ∈ seen then dedupByFp h seen rest
    else p :: dedupByFp h (fpOf h p.1 :: seen) rest

/-- Ascending comparison on the score component, the key order of
`sorted(unique_results, key=lambda x: x[1])`. -/
def scoreLE (a b : Doc × ℚ) : Prop := a.2 ≤ b.2

instance : DecidableRel scoreLE := fun a b => inferInstanceAs (Decidable (a.2 ≤ b.2))

instance : IsTotal (Doc × ℚ) scoreLE := ⟨fun a b => le_total a.2 b.2⟩

instance : IsTrans (Doc × ℚ) scoreLE := ⟨fun _ _ _ h1 h2 => le_trans h1 h2⟩

/-- Embedding of Python's stable ascending `sorted(..., key=lambda x: x[1])`. -/
def sortByScore (l : List (Doc × ℚ)) : List (Doc × ℚ) := l.insertionSort scoreLE

/-- `hybrid_search` (`backend_multimodal.py` lines 62–84): semantic candidates
followed by lexical candidates, deduplicated by content fingerprint keeping the
first occurrence, sorted ascending by score, truncated to `k`. -/
def hybrid_search (h : String → Int) (store : VectorStore) (query : String) (k : Nat) :
    List (Doc × ℚ) :=
  let semantic_docs := store.similarity_search_with_score query k
  let all_results := semantic_docs ++ keyword_matches store query
  let unique_results := dedupByFp h [] all_results
  (sortByScore unique_results).take k

/-- The fixed synonym table of `preprocess_query` (lines 88–99), in source
order (Python dicts iterate in insertion order). -/
def physics_synonyms : List (String × List String) :=
  [("chapters", ["topics", "sections", "units"]),
   ("physics", ["physical science", "mechanics", "motion"]),
   ("energy", ["power", "force", "work"]),
   ("conservation", ["preservation", "constant"]),
   ("law", ["principle", "rule", "theorem"]),
   ("motion", ["movement", "kinematics"]),
   ("electricity", ["electric", "electrical", "current"]),
   ("magnetism", ["magnetic", "magnet"]),
   ("light", ["optics", "optical", "rays"]),
   ("waves", ["wave", "vibration", "oscillation"])]

/-- The synonyms appended for one token: all synonym lists of table keys that
match the token (`if term in key or key in term`), in table order. -/
def synonymsFor (term : String) : List String :=
  physics_synonyms.flatMap (fun ks =>
    if isSubstr term ks.1 || isSubstr ks.1 term then ks.2 else [])

/-- The accumulation loop of `preprocess_query` (lines 101–106): for each term,
append the term itself and then the synonyms of every matching key. -/
def expandLoop (acc : List String) : List String → List String
  | [] => acc
  | term :: rest => expandLoop (acc ++ [term] ++ synonymsFor term) rest

/-- `preprocess_query` (lines 86–108): returns the raw query together with the
space-joined expansion of the lowercased, stripped, whitespace-split query. -/
def preprocess_query (query : String) : String × String :=
  let processed_query := wsTrim (lowerStr query)
  let query_terms := splitWs processed_query
  let expanded_terms := expandLoop [] query_terms
  (query, joinSep " " expanded_terms)

/-- One retrieval pass as observed at the vector-store boundary: the query text
and the requested `k`. -/
structure RetrievalCall where
  query : String
  k : Nat
deriving DecidableEq

/-- The merge step of the widening branch (`streamlit_app*.py`): concatenate
stage-1 and stage-2 results, deduplicate by content fingerprint keeping the
first occurrence, sort ascending by score, truncate to 5. -/
def mergeStages (h : String → Int) (stage1 stage2 : List (Doc × ℚ)) : List (Doc × ℚ) :=
  (sortByScore (dedupByFp h [] (stage1 ++ stage2))).take 5

/-- The adaptive retrieval of both streamlit apps (`streamlit_app.py` lines
194–215, `streamlit_app_multilingual.py` lines 210–231), paired with the trace
of retrieval passes issued: stage 1 always runs with `(original, k=5)`; stage 2
runs with `(expanded, k=3)` exactly when stage 1 is non-empty and its first
score exceeds `1.0`. -/
def docs_with_scores (h : String → Int) (store : VectorStore) (original expanded : String) :
    List (Doc × ℚ) × List RetrievalCall :=
  let stage1 := hybrid_search h store original 5
  match stage1 with
  | [] => (stage1, [⟨original, 5⟩])
  | p :: rest =>
    if 1 < p.2 then
      let stage2 := hybrid_search h store expanded 3
      (mergeStages h (p :: rest) stage2, [⟨original, 5⟩, ⟨expanded, 3⟩])
    else (p :: rest, [⟨original, 5⟩])

/-- The similarity threshold test `score < 1.2` of the streamlit apps. -/
def belowThreshold (p : Doc × ℚ) : Bool := decide (p.2 < mkRat 12 10)

/-- The threshold filter with top-3 fallback (`streamlit_app.py` lines 217–223,
`streamlit_app_multilingual.py` lines 233–239). -/
def relevant_docs (dws : List (Doc × ℚ)) : List Doc :=
  let filtered := (dws.filter belowThreshold).map Prod.fst
  if filtered = [] then (dws.take 3).map Prod.fst else filtered

/-- One rendered context block (`context_parts.append(...)`, 0-based loop index
`i`): the `source` metadata value is used as-is, with dictionary defaults
`'Unknown'` and `'N/A'`. -/
def renderBlock (i : Nat) (d : Doc) : String :=
  "Source " ++ toString (i + 1) ++ " (" ++ d.source.getD "Unknown" ++ ", Page " ++
    d.page.getD "N/A" ++ "):\n" ++ d.content

/-- The list of rendered context blocks (`streamlit_app.py` lines 226–230). -/
def context_parts (relevant : List Doc) : List String :=
  relevant.enum.map (fun p => renderBlock p.1 p.2)

/-- The context string handed to generation: `"\n\n".join(context_parts)`. -/
def contextOf (relevant : List Doc) : String := joinSep "\n\n" (context_parts relevant)

/-- Embedding of Python `os.path.basename`: the text after the last `'/'`. -/
def basename (p : String) : String :=
  ⟨(p.data.reverse.takeWhile (fun c => c ≠ '/')).reverse⟩

/-- A citation entry `{"source": ..., "page": ...}`. -/
structure Citation where
  source : String
  page : String
deriving DecidableEq

/-- The citation built for one chunk: base name of the `source` metadata value
(default `'Unknown'`), page default `'N/A'`. -/
def citationOf (d : Doc) : Citation :=
  ⟨basename (d.source.getD "Unknown"), d.page.getD "N/A"⟩

/-- The citation loop of `streamlit_app_multilingual.py` (lines 274–282) and
`app.py` (lines 93–101): append a citation only when it is not already
present. -/
def buildSources (acc : List Citation) : List Doc → List Citation
  | [] => acc
  | d :: ds =>
    if citationOf d ∈ acc then buildSources acc ds
    else buildSources (acc ++ [citationOf d]) ds

/-- The deduplicating citation assembly (multilingual app and Flask app). -/
def sourcesDedup (docs : List Doc) : List Citation := buildSources [] docs

/-- The citation loop of `streamlit_app.py` (lines 257–265): unconditional
append, no deduplication. -/
def sourcesNoDedup (docs : List Doc) : List Citation :=
  docs.foldl (fun acc d => acc ++ [citationOf d]) []

/-- Deduplication by exact equality keeping the first occurrence, written the
way the spec describes it (`Modelled from the spec`: the canonical citation
dedup of §4.4, used as the comparison point for the code's loops). -/
def keepFirst : List Citation → List Citation
  | [] => []
  | c :: cs => c :: keepFirst (cs.filter (fun x => x ≠ c))
termination_by l => l.length
decreasing_by
  simp only [List.length_cons]
  exact Nat.lt_succ_of_le (List.length_filter_le _ _)

/-- One stored chat turn (`st.session_state.messages` entries): role, content,
and the `has_image` flag (`msg.get('has_image')` is falsy when absent).
Assistant-side extras such as the `sources` key play no role in any claim and
are omitted. -/
structure Message where
  role : String
  content : String
  hasImage : Bool
deriving DecidableEq

/-- Rendering of one history line (`streamlit_app.py` lines 240–244). -/
def renderMsg (m : Message) : String :=
  (if m.role = "user" then "Student" else "Assistant") ++ ": " ++
    (if m.hasImage then m.content ++ " [Student also shared an image]" else m.content)

/-- The conversation-history rendering (`streamlit_app.py` lines 234–245,
`streamlit_app_multilingual.py` lines 250–261): with at least two stored turns,
the last 6 turns minus the in-flight one, one line each, newline-joined;
otherwise the empty string.  `messages[-6:]` is `drop (length - 6)` and
`[:-1]` is `dropLast`. -/
def conversation_history (messages : List Message) : String :=
  if 1 < messages.length then
    joinSep "\n" (((messages.drop (messages.length - 6)).dropLast).map renderMsg)
  else ""

/-- The running-context update of `streamlit_app.py` (lines 275–281), the
spec's `recordExchange`. -/
def recordExchange (runningContext userText assistantText : String) : String :=
  let new_context := "Student: " ++ userText ++ "\nAssistant: " ++ assistantText
  if 2000 < strLen runningContext then
    takeLastStr runningContext 1000 ++ "\n" ++ new_context
  else
    runningContext ++ "\n" ++ new_context

/-- The per-session conversation state of the streamlit apps. -/
structure SessionState where
  messages : List Message
  conversation_context : String
deriving DecidableEq

/-- The argument record of the single generation call
(`chain.run(conversation_history=..., context=..., question=...)`). -/
structure GenRequest where
  conversation_history : String
  context : String
  question : String
deriving DecidableEq

/-- The generation request assembled by both streamlit request handlers from
the post-user-append message list and the query text: history from the stored
turns, context from the adaptively retrieved chunks, and the original
(unexpanded) query as the question. -/
def genRequestOf (h : String → Int) (store : VectorStore) (messagesAfterUser : List Message)
    (queryText : String) : GenRequest :=
  let pq := preprocess_query queryText
  let dws := (docs_with_scores h store pq.1 pq.2).1
  ⟨conversation_history messagesAfterUser, contextOf (relevant_docs dws), pq.1⟩

/-- The error reply appended by the multilingual app's except branch
(`streamlit_app_multilingual.py` lines 300–303). -/
def errorReply (e : String) : String :=
  "I'm sorry, I encountered an error while processing your question: " ++ e

/-- One request turn of `streamlit_app_multilingual.py` (lines 182–303) over
the session state, for a text query.  The user turn is appended before the
try block; the collaborators modelled as fallible are condensed into the
generation call `gen` (the retrieval collaborator is total here, so the
handler's retrieval fallbacks are the identity).  On success the assistant
turn is appended; on failure the except branch appends the error reply.  Also
returned: the trace of retrieval passes and the generation request issued. -/
def processTurnML (h : String → Int) (store : VectorStore)
    (gen : GenRequest → Except String String) (st : SessionState)
    (queryText : String) (hasImage : Bool) :
    SessionState × List RetrievalCall × GenRequest :=
  let messages1 := st.messages ++ [⟨"user", queryText, hasImage⟩]
  let pq := preprocess_query queryText
  let out := docs_with_scores h store pq.1 pq.2
  let req := genRequestOf h store messages1 queryText
  match gen req with
  | .ok result =>
    (⟨messages1 ++ [⟨"assistant", result, false⟩], st.conversation_context⟩, out.2, req)
  | .error e =>
    (⟨messages1 ++ [⟨"assistant", errorReply e, false⟩], st.conversation_context⟩, out.2, req)

/-- One request turn of `streamlit_app.py` (lines 166–285): same shape, but on
success the running context is updated through `recordExchange`, and the
except branch appends nothing (it only displays an error). -/
def processTurnApp (h : String → Int) (store : VectorStore)
    (gen : GenRequest → Except String String) (st : SessionState)
    (queryText : String) (hasImage : Bool) :
    SessionState × List RetrievalCall × GenRequest :=
  let messages1 := st.messages ++ [⟨"user", queryText, hasImage⟩]
  let pq := preprocess_query queryText
  let out := docs_with_scores h store pq.1 pq.2
  let req := genRequestOf h store messages1 queryText
  match gen req with
  | .ok result =>
    (⟨messages1 ++ [⟨"assistant", result, false⟩],
      recordExchange st.conversation_context queryText result⟩, out.2, req)
  | .error _ => (⟨messages1, st.conversation_context⟩, out.2, req)

/-! ### Helper lemmas about the deduplication loop -/

theorem mem_of_mem_dedupByFp (h : String → Int) :
    ∀ (seen : List Int) (l : List (Doc × ℚ)) (p : Doc × ℚ),
      p ∈ dedupByFp h seen l → p ∈ l ∧ fpOf h p.1 ∉ seen := by
  intro seen l
  induction l generalizing seen with
  | nil => intro p hp; simp [dedupByFp] at hp
  | cons q rest ih =>
    intro p hp
    simp only [dedupByFp] at hp
    by_cases hq : fpOf h q.1 ∈ seen
    · rw [if_pos hq] at hp
      obtain ⟨h1, h2⟩ := ih seen p hp
      exact ⟨List.mem_cons_of_mem _ h1, h2⟩
    · rw [if_neg hq] at hp
      rcases List.mem_cons.mp hp with rfl | hp'
      · exact ⟨List.mem_cons_self _ _, hq⟩
      · obtain ⟨h1, h2⟩ := ih _ p hp'
        exact ⟨List.mem_cons_of_mem _ h1, fun c => h2 (List.mem_cons_of_mem _ c)⟩

theorem pairwise_dedupByFp (h : String → Int) :
    ∀ (seen : List Int) (l : List (Doc × ℚ)),
      (dedupByFp h seen l).Pairwise (fun a b => fpOf h a.1 ≠ fpOf h b.1) := by
  intro seen l
  induction l generalizing seen with
  | nil => simp [dedupByFp]
  | cons q rest ih =>
    simp only [dedupByFp]
    by_cases hq : fpOf h q.1 ∈ seen
    · rw [if_pos hq]; exact ih seen
    · rw [if_neg hq]
      refine List.Pairwise.cons ?_ (ih _)
      intro b hb he
      have hnb := (mem_of_mem_dedupByFp h _ _ b hb).2
      exact hnb (by rw [← he]; exact List.mem_cons_self _ _)

theorem dedupByFp_append_first (h : String → Int) :
    ∀ (l₁ : List (Doc × ℚ)) (seen : List Int) (l₂ : List (Doc × ℚ)) (p : Doc × ℚ),
      p ∈ dedupByFp h seen (l₁ ++ l₂) →
      (∃ q ∈ l₁, fpOf h q.1 = fpOf h p.1) → p ∈ l₁ := by
  intro l₁
  induction l₁ with
  | nil =>
    intro seen l₂ p _ hq
    simp at hq
  | cons a l₁ ih =>
    intro seen l₂ p hp hq
    rw [List.cons_append] at hp
    simp only [dedupByFp] at hp
    by_cases ha : fpOf h a.1 ∈ seen
    · rw [if_pos ha] at hp
      rcases hq with ⟨q, hq1, hq2⟩
      rcases List.mem_cons.mp hq1 with rfl | hq1'
      · have hnp := (mem_of_mem_dedupByFp h seen _ p hp).2
        exact absurd (show fpOf h p.1 ∈ seen by rw [← hq2]; exact ha) hnp
      · exact List.mem_cons_of_mem _ (ih seen l₂ p hp ⟨q, hq1', hq2⟩)
    · rw [if_neg ha] at hp
      rcases List.mem_cons.mp hp with rfl | hp'
      · exact List.mem_cons_self _ _
      · rcases hq with ⟨q, hq1, hq2⟩
        rcases List.mem_cons.mp hq1 with rfl | hq1'
        · have hnp := (mem_of_mem_dedupByFp h _ _ p hp').2
          exact absurd (show fpOf h p.1 ∈ fpOf h q.1 :: seen by
            rw [← hq2]; exact List.mem_cons_self _ _) hnp
        · exact List.mem_cons_of_mem _ (ih _ l₂ p hp' ⟨q, hq1', hq2⟩)

/-- C1: for every hash function, store, query and positive `k`, `hybrid_search`
returns at most `k` scored chunks, pairwise distinct under the content
fingerprint (hash of the first 100 characters of the content), sorted by
non-decreasing score; deduplication keeps the first occurrence in
semantic-then-lexical concatenation order, so any returned chunk whose
fingerprint also occurs among the semantic hits is itself a semantic hit. -/
theorem hybrid_search_spec (h : String → Int) (store : VectorStore) (query : String)
    (k : Nat) (hk : 0 < k) :
    (hybrid_search h store query k).length ≤ k ∧
    (hybrid_search h store query k).Pairwise (fun a b => fpOf h a.1 ≠ fpOf h b.1) ∧
    (hybrid_search h store query k).Sorted scoreLE ∧
    ∀ p ∈ hybrid_search h store query k,
      (∃ q ∈ store.similarity_search_with_score query k, fpOf h q.1 = fpOf h p.1) →
      p ∈ store.similarity_search_with_score query k := by
  have hsub : hybrid_search h store query k =
      (List.insertionSort scoreLE (dedupByFp h []
        (store.similarity_search_with_score query k ++ keyword_matches store query))).take k :=
    rfl
  refine ⟨?_, ?_, ?_, ?_⟩
  · rw [hsub, List.length_take]
    exact min_le_left _ _
  · rw [hsub]
    refine List.Pairwise.sublist (List.take_sublist _ _) ?_
    have hperm := List.perm_insertionSort scoreLE (dedupByFp h []
      (store.similarity_search_with_score query k ++ keyword_matches store query))
    exact (hperm.pairwise_iff (fun hxy => Ne.symm hxy)).mpr (pairwise_dedupByFp h [] _)
  · rw [hsub]
    exact List.Pairwise.sublist (List.take_sublist _ _)
      (List.sorted_insertionSort scoreLE _)
  · intro p hp hq
    rw [hsub] at hp
    have hp2 : p ∈ dedupByFp h []
        (store.similarity_search_with_score query k ++ keyword_matches store query) :=
      (List.perm_insertionSort scoreLE _).mem_iff.mp (List.mem_of_mem_take hp)
    exact dedupByFp_append_first h _ [] _ p hp2 hq

/-- Example hash used to instantiate hypothesis-bearing theorems: any concrete
function works, since the development is parametric in the hash. -/
def hashEx (s : String) : Int := (strLen s : Int)

def docEx1 : Doc := ⟨"alpha clause", some "a/p.pdf", some "1"⟩

def storeEx1 : VectorStore := ⟨fun _ _ => [(docEx1, 2)], []⟩

/-- Witness for C1 at a concrete store, query and `k`. -/
theorem hybrid_search_spec_witness :
    0 < 2 ∧
    (hybrid_search hashEx storeEx1 "q" 2).length ≤ 2 ∧
    (hybrid_search hashEx storeEx1 "q" 2).Pairwise
      (fun a b => fpOf hashEx a.1 ≠ fpOf hashEx b.1) ∧
    (hybrid_search hashEx storeEx1 "q" 2).Sorted scoreLE :=
  have T := hybrid_search_spec hashEx storeEx1 "q" 2 (by decide)
  ⟨by decide, T.1, T.2.1, T.2.2.1⟩

/-- C2: the widened second retrieval pass, with the expanded query and `k = 3`,
is issued exactly once if and only if stage 1 is non-empty and its first
(best) score is strictly greater than `1.0`; otherwise the trace contains only
the stage-1 call. -/
theorem widening_spec (h : String → Int) (store : VectorStore) (original expanded : String) :
    ((∃ p, (hybrid_search h store original 5).head? = some p ∧ 1 < p.2) →
      (docs_with_scores h store original expanded).2 =
        [⟨original, 5⟩, ⟨expanded, 3⟩]) ∧
    ((∀ p, (hybrid_search h store original 5).head? = some p → p.2 ≤ 1) →
      (docs_with_scores h store original expanded).2 = [⟨original, 5⟩]) := by
  unfold docs_with_scores
  cases hs : hybrid_search h store original 5 with
  | nil =>
    refine ⟨fun hq => ?_, fun _ => rfl⟩
    rcases hq with ⟨p, hp, _⟩
    simp at hp
  | cons p rest =>
    dsimp only
    by_cases h1 : 1 < p.2
    · rw [if_pos h1]
      refine ⟨fun _ => rfl, fun hle => ?_⟩
      exact absurd (hle p rfl) (not_le.mpr h1)
    · rw [if_neg h1]
      refine ⟨fun hq => ?_, fun _ => rfl⟩
      rcases hq with ⟨p', hp', hlt⟩
      have : p' = p := by simpa using hp'.symm
      exact absurd (this ▸ hlt) h1

/-- Witness for C2: a store whose stage-1 best score is `2 > 1`, so the trace
records exactly the two passes. -/
theorem widening_spec_witness :
    (hybrid_search hashEx storeEx1 "q" 5).head? = some (docEx1, 2) ∧
    (1 : ℚ) < 2 ∧
    (docs_with_scores hashEx storeEx1 "q" "q plus").2 = [⟨"q", 5⟩, ⟨"q plus", 3⟩] :=
  have h1 : (hybrid_search hashEx storeEx1 "q" 5).head? = some (docEx1, 2) := by decide
  have h2 : (1 : ℚ) < 2 := by decide
  ⟨h1, h2, (widening_spec hashEx storeEx1 "q" "q plus").1 ⟨(docEx1, 2), h1, h2⟩⟩

/-- C3: for every scored candidate list, the final relevant set is the
score-order-preserving chunk projection of a sublist that is either the full
strictly-below-1.2 filter (when that filter is non-empty) or exactly the first
3 entries regardless of score (when the filter is empty). -/
theorem relevant_docs_spec (dws : List (Doc × ℚ)) :
    ∃ l, l.Sublist dws ∧ relevant_docs dws = l.map Prod.fst ∧
      ((l = dws.filter belowThreshold ∧ l ≠ [] ∧ ∀ p ∈ l, p.2 < mkRat 12 10) ∨
       (dws.filter belowThreshold = [] ∧ l = dws.take 3)) := by
  by_cases hf : dws.filter belowThreshold = []
  · refine ⟨dws.take 3, List.take_sublist _ _, ?_, Or.inr ⟨hf, rfl⟩⟩
    unfold relevant_docs
    rw [hf]
    simp
  · refine ⟨dws.filter belowThreshold, List.filter_sublist _, ?_, Or.inl ⟨rfl, hf, ?_⟩⟩
    · unfold relevant_docs
      rw [if_neg (by simpa using hf)]
    · intro p hp
      have := List.of_mem_filter hp
      simpa [belowThreshold] using this

/-- C4: the expanded component of `preprocess_query` is the space-joined
expansion of the lowercased, trimmed, whitespace-split query where each token
is followed by the synonym lists of every canonical key it matches (token a
substring of the key or vice versa), in order of occurrence, duplicates
kept. -/
theorem preprocess_query_expanded_spec (query : String) :
    (preprocess_query query).2 =
      joinSep " " ((splitWs (wsTrim (lowerStr query))).flatMap
        (fun term => term :: synonymsFor term)) := by
  have expand_eq : ∀ (ts acc : List String),
      expandLoop acc ts = acc ++ ts.flatMap (fun t => t :: synonymsFor t) := by
    intro ts
    induction ts with
    | nil => intro acc; simp [expandLoop]
    | cons t ts ih =>
      intro acc
      rw [show expandLoop acc (t :: ts) = expandLoop (acc ++ [t] ++ synonymsFor t) ts from rfl,
        ih]
      simp [List.flatMap_cons, List.append_assoc]
  unfold preprocess_query
  dsimp only
  rw [expand_eq]
  simp

/-- Every part of a separator join occurs inside the joined string. -/
theorem infix_joinSep (sep : String) :
    ∀ (parts : List String) (s : String), s ∈ parts →
      s.data <:+: (joinSep sep parts).data := by
  intro parts
  induction parts with
  | nil => intro s hs; simp at hs
  | cons x xs ih =>
    intro s hs
    cases xs with
    | nil =>
      rw [List.mem_singleton] at hs
      subst hs
      exact List.infix_refl _
    | cons y ys =>
      rcases List.mem_cons.mp hs with rfl | hs'
      · show s.data <:+: (s ++ sep ++ joinSep sep (y :: ys)).data
        rw [String.data_append, String.data_append, List.append_assoc]
        exact (List.prefix_append _ _).isInfix
      · have hin := ih s hs'
        show s.data <:+: (x ++ sep ++ joinSep sep (y :: ys)).data
        rw [String.data_append]
        exact hin.trans (List.suffix_append _ _).isInfix

/-- C5 (amended): the context string contains, for the chunk at 0-based enum
position `i`, the block `"Source {i+1} ({source}, Page {page}):\n{content}"`
where `source` is the raw metadata source value (default `"Unknown"`) — not
its base name — and `page` defaults to `"N/A"`. -/
theorem context_blocks_spec (relevant : List Doc) (i : Nat) (d : Doc)
    (hm : (i, d) ∈ relevant.enum) :
    (renderBlock i d).data <:+: (contextOf relevant).data := by
  have hmem : renderBlock i d ∈ context_parts relevant := by
    unfold context_parts
    exact List.mem_map.mpr ⟨(i, d), hm, rfl⟩
  show (renderBlock i d).data <:+: (joinSep "\n\n" (context_parts relevant)).data
  exact infix_joinSep "\n\n" (context_parts relevant) (renderBlock i d) hmem

def docC5 : Doc := ⟨"Clause text", some "docs/policy.pdf", some "12"⟩

set_option maxHeartbeats 2000000 in
/-- C5 counterexample: the context for a chunk whose source carries a
directory prefix does not contain the base-name block the claim asserts — the
code interpolates the raw source value into the context, applying
`os.path.basename` only when assembling citations. -/
theorem context_basename_counterexample :
    ¬ ("Source 1 (policy.pdf, Page 12):\nClause text".data <:+:
        (contextOf [docC5]).data) := by decide

/-- Witness for the amended C5 at a concrete chunk list. -/
theorem context_blocks_spec_witness :
    ((0, docC5) ∈ ([docC5] : List Doc).enum) ∧
    (renderBlock 0 docC5).data <:+: (contextOf [docC5]).data :=
  ⟨by decide, context_blocks_spec [docC5] 0 docC5 (by decide)⟩

def storeEmpty : VectorStore := ⟨fun _ _ => [], []⟩

def stEmpty : SessionState := ⟨[], ""⟩

/-- C6 counterexample: the generation call fails, yet the per-session message
list is no longer equal to its pre-request value — the user turn is appended
before retrieval/generation, and the multilingual except branch appends an
error turn as well. -/
theorem memory_mutation_counterexample :
    (processTurnML hashEx storeEmpty (fun _ => Except.error "boom") stEmpty "hello" false).1.messages
      ≠ stEmpty.messages := by decide

/-- C6 (amended): the user turn is appended before generation, so after any
turn — successful or failed — the multilingual handler's message list is the
old list plus the user turn plus one assistant turn (the answer or the error
reply), with the running context untouched; in the base app a failed
generation leaves just the user turn appended and the running context
untouched. -/
theorem memory_mutation_spec (h : String → Int) (store : VectorStore)
    (gen : GenRequest → Except String String) (st : SessionState) (q : String) (img : Bool) :
    (∃ reply : String, (processTurnML h store gen st q img).1.messages =
        st.messages ++ [⟨"user", q, img⟩, ⟨"assistant", reply, false⟩]) ∧
    (processTurnML h store gen st q img).1.conversation_context = st.conversation_context ∧
    (∀ e, gen (genRequestOf h store (st.messages ++ [⟨"user", q, img⟩]) q) = Except.error e →
      (processTurnApp h store gen st q img).1.messages = st.messages ++ [⟨"user", q, img⟩] ∧
      (processTurnApp h store gen st q img).1.conversation_context = st.conversation_context) := by
  unfold processTurnML processTurnApp
  dsimp only
  cases hr : gen (genRequestOf h store (st.messages ++ [⟨"user", q, img⟩]) q) with
  | ok r =>
    refine ⟨⟨r, by simp⟩, rfl, ?_⟩
    intro e he
    simp at he
  | error e =>
    refine ⟨⟨errorReply e, by simp⟩, rfl, ?_⟩
    intro e' _
    exact ⟨rfl, rfl⟩

/-- Witness for the amended C6 with a failing generation collaborator. -/
theorem memory_mutation_spec_witness :
    (processTurnML hashEx storeEmpty (fun _ => Except.error "boom") stEmpty "hi" false).1.conversation_context =
      stEmpty.conversation_context ∧
    ((processTurnApp hashEx storeEmpty (fun _ => Except.error "boom") stEmpty "hi" false).1.messages =
        stEmpty.messages ++ [⟨"user", "hi", false⟩] ∧
     (processTurnApp hashEx storeEmpty (fun _ => Except.error "boom") stEmpty "hi" false).1.conversation_context =
        stEmpty.conversation_context) :=
  have T := memory_mutation_spec hashEx storeEmpty (fun _ => Except.error "boom") stEmpty "hi" false
  ⟨T.2.1, T.2.2 "boom" rfl⟩

/-- C7: when the running context is longer than 2000 characters the new value
is its last 1000 characters, a newline, and the new
`"Student: {user}\nAssistant: {assistant}"` entry; otherwise it is the old
context, a newline, and the new entry. -/
theorem recordExchange_spec (rc u a : String) :
    (2000 < strLen rc →
      (recordExchange rc u a).data =
        rc.data.drop (rc.data.length - 1000) ++
          ("\n" ++ ("Student: " ++ u ++ "\nAssistant: " ++ a)).data) ∧
    (strLen rc ≤ 2000 →
      recordExchange rc u a = rc ++ "\n" ++ ("Student: " ++ u ++ "\nAssistant: " ++ a)) := by
  constructor
  · intro hlen
    unfold recordExchange takeLastStr
    rw [if_pos hlen]
    simp [String.data_append]
  · intro hlen
    unfold recordExchange
    rw [if_neg (not_lt.mpr hlen)]

def rc2100 : String := ⟨List.replicate 2100 'a'⟩

/-- Witness for C7: a running context of length 2100 (so the `> 2000` branch
fires and keeps exactly the last 1000 characters). -/
theorem recordExchange_spec_witness :
    2000 < strLen rc2100 ∧
    (recordExchange rc2100 "u" "v").data =
      rc2100.data.drop (rc2100.data.length - 1000) ++
        ("\n" ++ ("Student: " ++ "u" ++ "\nAssistant: " ++ "v")).data :=
  have hl : 2000 < strLen rc2100 := by
    show 2000 < (List.replicate 2100 'a').length
    rw [List.length_replicate]
    norm_num
  ⟨hl, (recordExchange_spec rc2100 "u" "v").1 hl⟩

/-- C8: with fewer than 2 stored turns the rendered history is empty; with at
least 2 it is the newline-join of the last 6 turns minus the in-flight one,
each rendered as `"Student: ..."`/`"Assistant: ..."` with the image suffix
appended when the turn carries an image, so `min(length, 6) - 1` lines are
rendered (5 lines for 7 accumulated turns). -/
theorem conversation_history_spec (messages : List Message) :
    (messages.length ≤ 1 → conversation_history messages = "") ∧
    (2 ≤ messages.length →
      conversation_history messages =
        joinSep "\n" (((messages.drop (messages.length - 6)).dropLast).map renderMsg) ∧
      (((messages.drop (messages.length - 6)).dropLast).map renderMsg).length =
        min messages.length 6 - 1) ∧
    (∀ m : Message, renderMsg m =
      (if m.role = "user" then "Student" else "Assistant") ++ ": " ++ m.content ++
        (if m.hasImage then " [Student also shared an image]" else "")) := by
  refine ⟨?_, ?_, ?_⟩
  · intro hle
    unfold conversation_history
    rw [if_neg (by omega)]
  · intro h2
    refine ⟨?_, ?_⟩
    · unfold conversation_history
      rw [if_pos (by omega)]
    · rw [List.length_map, List.length_dropLast, List.length_drop]
      omega
  · intro m
    unfold renderMsg
    cases hi : m.hasImage <;> apply String.ext <;> simp [String.data_append]

def msgs7 : List Message :=
  [⟨"user", "q1", false⟩, ⟨"assistant", "a1", false⟩, ⟨"user", "q2", true⟩,
   ⟨"assistant", "a2", false⟩, ⟨"user", "q3", false⟩, ⟨"assistant", "a3", false⟩,
   ⟨"user", "q4", false⟩]

/-- Witness for C8: with 7 accumulated turns, exactly 5 lines are rendered. -/
theorem conversation_history_spec_witness :
    (((msgs7.drop (msgs7.length - 6)).dropLast).map renderMsg).length = 5 := by
  have h := ((conversation_history_spec msgs7).2.1 (by decide)).2
  rw [h]
  decide

theorem keepFirst_nil : keepFirst [] = [] := by
  rw [keepFirst]

theorem keepFirst_cons (c : Citation) (cs : List Citation) :
    keepFirst (c :: cs) = c :: keepFirst (cs.filter (fun x => x ≠ c)) := by
  rw [keepFirst]

theorem buildSources_eq (docs : List Doc) :
    ∀ acc : List Citation,
      buildSources acc docs =
        acc ++ keepFirst ((docs.map citationOf).filter (fun c => !decide (c ∈ acc))) := by
  induction docs with
  | nil => intro acc; simp [buildSources, keepFirst_nil]
  | cons d ds ih =>
    intro acc
    simp only [buildSources, List.map_cons]
    by_cases hd : citationOf d ∈ acc
    · rw [if_pos hd, List.filter_cons_of_neg (by simp [hd]), ih acc]
    · rw [if_neg hd, List.filter_cons_of_pos (by simp [hd]), keepFirst_cons,
        ih (acc ++ [citationOf d]), List.filter_filter, List.append_assoc,
        List.singleton_append]
      congr 3
      apply List.filter_congr
      intro x _
      by_cases hx : x ∈ acc <;> by_cases hc : x = citationOf d <;>
        simp [hx, hc, List.mem_append]

theorem sourcesNoDedup_eq (docs : List Doc) : sourcesNoDedup docs = docs.map citationOf := by
  have general : ∀ (ds : List Doc) (acc : List Citation),
      ds.foldl (fun acc d => acc ++ [citationOf d]) acc = acc ++ ds.map citationOf := by
    intro ds
    induction ds with
    | nil => intro acc; simp
    | cons d ds ih => intro acc; simp [List.foldl_cons, ih, List.append_assoc]
  simpa using general docs []

/-- C9 counterexample: in the `streamlit_app.py` variant two chunks with equal
`{source, page}` citations produce a citation list with a duplicate — that
variant appends citations unconditionally, so the claim fails for "every
product variant". -/
theorem citations_dedup_counterexample :
    ¬ (sourcesNoDedup
        [⟨"first clause text", some "a/pol.pdf", some "3"⟩,
         ⟨"second clause text", some "b/pol.pdf", some "3"⟩]).Nodup := by decide

/-- C9 (amended): the multilingual app and the Flask app build the citation
list by exact-equality deduplication keeping the first occurrence in
first-seen order (`keepFirst` of the per-chunk citations), while the base
`streamlit_app.py` appends every chunk's citation without deduplication. -/
theorem citations_dedup_spec (docs : List Doc) :
    sourcesDedup docs = keepFirst (docs.map citationOf) ∧
    sourcesNoDedup docs = docs.map citationOf := by
  constructor
  · have h := buildSources_eq docs []
    simpa [sourcesDedup] using h
  · exact sourcesNoDedup_eq docs

theorem docs_with_scores_trace_head (h : String → Int) (store : VectorStore)
    (original expanded : String) :
    (docs_with_scores h store original expanded).2.head? = some ⟨original, 5⟩ := by
  unfold docs_with_scores
  cases hybrid_search h store original 5 with
  | nil => rfl
  | cons p rest =>
    dsimp only
    by_cases h1 : 1 < p.2
    · rw [if_pos h1]
      rfl
    · rw [if_neg h1]
      rfl

/-- C10: `preprocess_query` returns the raw, unmodified input as the first
component of its pair, and that raw query is what the request handler passes
to the stage-1 retrieval call (`k = 5`) and as the question of the generation
request; only the second component is built from normalized tokens. -/
theorem original_query_passthrough (h : String → Int) (store : VectorStore)
    (gen : GenRequest → Except String String) (st : SessionState) (q : String) (img : Bool) :
    (preprocess_query q).1 = q ∧
    (processTurnML h store gen st q img).2.1.head? = some ⟨q, 5⟩ ∧
    (processTurnML h store gen st q img).2.2.question = q := by
  refine ⟨rfl, ?_, ?_⟩
  · unfold processTurnML
    dsimp only
    cases gen (genRequestOf h store (st.messages ++ [⟨"user", q, img⟩]) q) with
    | ok r => exact docs_with_scores_trace_head h store q (preprocess_query q).2
    | error e => exact docs_with_scores_trace_head h store q (preprocess_query q).2
  · unfold processTurnML
    dsimp only
    cases gen (genRequestOf h store (st.messages ++ [⟨"user", q, img⟩]) q) with
    | ok r => rfl
    | error e => rfl
